import Mathlib

/-!
Shallow embedding of the math service's request-memoization subsystem:
the in-memory result cache (`math_service/utils/cache.py`), the persistent
operations log and its queries (`math_service/db/sqlite_handler.py`), the
fibonacci operation (`math_service/operations/fibonacci.py`), the dispatch
worker (`math_service/workers/thread_worker.py`) and the request-handling
coordinator endpoints (`math_service/api/main.py`).
-/

/-- A request fingerprint: the `cache_key = (operation, input_data)` tuple
of `utils/cache.py` — operation name paired with the canonically
serialized input. -/
abbrev Fingerprint := String × String

/-- The process-wide `memory_cache : Dict[Tuple[str, str], str]`, modelled
as an association list with at most one binding per key (Python dict
semantics: assignment overwrites in place, insertion order kept). -/
abbrev Cache := List (Fingerprint × String)

/-- First-match association-list lookup; models `memory_cache.get(cache_key)`
(`None` on a missing key). -/
def lookupKey : Cache → Fingerprint → Option String
  | [], _ => none
  | (k, v) :: rest, f => if k = f then some v else lookupKey rest f

/-- `get_from_cache(operation, input_data)`: returns `memory_cache.get`'s
value unconditionally (the CACHE HIT / CACHE MISS logging in the source
does not affect the returned value). -/
def get_from_cache (operation input_data : String) (c : Cache) : Option String :=
  lookupKey c (operation, input_data)

/-- Dict assignment `memory_cache[cache_key] = result`: overwrite the
existing binding if present, otherwise append a fresh binding. -/
def setKey : Cache → Fingerprint → String → Cache
  | [], f, v => [(f, v)]
  | (k, w) :: rest, f, v => if k = f then (f, v) :: rest else (k, w) :: setKey rest f v

/-- `set_in_cache(operation, input_data, result)`. -/
def set_in_cache (operation input_data result : String) (c : Cache) : Cache :=
  setKey c (operation, input_data) result

/-- `clear_cache()`: rebinds `memory_cache = {}`. -/
def clear_cache (_ : Cache) : Cache := []

/-- One mutating operation on the cache, used to state what happens to a
stored entry under later activity (`set_in_cache` calls and
`clear_cache` calls are the only writers in the source). -/
inductive CacheOp where
  | store (f : Fingerprint) (v : String)
  | clear
deriving DecidableEq

/-- Run one cache operation. -/
def applyCacheOp : Cache → CacheOp → Cache
  | c, .store f v => setKey c f v
  | c, .clear => clear_cache c

/-- Run a sequence of cache operations, oldest first. -/
def applyCacheOps (c : Cache) (ops : List CacheOp) : Cache :=
  ops.foldl applyCacheOp c

/-- Does this cache operation clear the cache or write the key `f`?
(The two ways the binding of `f` can change.) -/
def opTouches (f : Fingerprint) : CacheOp → Bool
  | .store g _ => g == f
  | .clear => true

/-- Does this cache operation store to the key `f`? -/
def storesKey (f : Fingerprint) : CacheOp → Bool
  | .store g _ => g == f
  | .clear => false

/-- One row of the SQLite `operations` table: operation name, serialized
input, serialized result and creation timestamp.  The source's timestamps
(`datetime.utcnow().isoformat()` strings, compared by SQLite as text,
consistent with chronological order) are modelled as naturals. -/
structure DbRecord where
  operation : String
  input : String
  result : String
  timestamp : Nat
deriving DecidableEq

/-- `save_operation(operation, input_data, result)`: the `INSERT INTO
operations` statement — the row is appended with the current clock value
as its timestamp. -/
def save_operation (operation input_data result : String) (db : List DbRecord) (now : Nat) :
    List DbRecord :=
  db ++ [{ operation := operation, input := input_data, result := result, timestamp := now }]

/-- Number of log rows carrying a given fingerprint. -/
def countFor (operation input_data : String) (db : List DbRecord) : Nat :=
  (db.filter (fun r => r.operation == operation && r.input == input_data)).length

/-- Python truthiness of an optional string parameter (`if operation_filter:`
in `get_all_operations`/`get_unique_operations`): present and non-empty. -/
def truthy : Option String → Bool
  | none => false
  | some s => !(s == "")

/-- Does the first character list begin the second? -/
def matchAt : List Char → List Char → Bool
  | [], _ => true
  | _ :: _, [] => false
  | n :: ns, h :: hs => n == h && matchAt ns hs

/-- Does the first character list occur contiguously inside the second? -/
def occursIn (needle : List Char) : List Char → Bool
  | [] => matchAt needle []
  | h :: hs => matchAt needle (h :: hs) || occursIn needle hs

/-- Models the SQL condition `input LIKE '%{input_filter}%'` as substring
containment of the filter value (SQLite's ASCII case folding and the
`%`/`_` wildcard meaning of characters inside the filter value are not
exercised by any property below, which holds for every row predicate). -/
def likeContains (needle hay : String) : Bool :=
  occursIn needle.data hay.data

/-- The WHERE clause built by `get_unique_operations`: `operation = ?` when
an operation filter is supplied (non-empty), and `input LIKE '%?%'` when an
input filter is supplied. -/
def matchesFilters (opF inF : Option String) (r : DbRecord) : Bool :=
  (!truthy opF || (r.operation == opF.getD "")) &&
  (!truthy inF || likeContains (inF.getD "") r.input)

/-- The grouping key equality of `GROUP BY operation, input`. -/
def sameKey (r s : DbRecord) : Bool :=
  r.operation == s.operation && r.input == s.input

/-- Insert a row into a list kept sorted by decreasing timestamp. -/
def insertByTsDesc (r : DbRecord) : List DbRecord → List DbRecord
  | [] => [r]
  | s :: rest =>
    if s.timestamp ≤ r.timestamp then r :: s :: rest else s :: insertByTsDesc r rest

/-- `ORDER BY timestamp DESC`. -/
def sortByTsDesc (l : List DbRecord) : List DbRecord :=
  l.foldr insertByTsDesc []

/-- `get_unique_operations(operation_filter, input_filter)`: filter the
table by the WHERE clause, then keep every row `o1` whose timestamp equals
the `MAX(timestamp)` of its `(operation, input)` group — this is the INNER
JOIN on `o1.timestamp = o2.max_timestamp`, which keeps each row achieving
the group maximum — ordered by timestamp descending. -/
def get_unique_operations (opF inF : Option String) (db : List DbRecord) : List DbRecord :=
  let m := db.filter (matchesFilters opF inF)
  sortByTsDesc (m.filter (fun r => m.all (fun s => !sameKey r s || s.timestamp ≤ r.timestamp)))

/-- The dictionary returned by `get_db_stats()`; `by_operation` is the
`GROUP BY operation` count table read as a total function. -/
structure DbStats where
  total_operations : Nat
  unique_combinations : Nat
  duplicates : Int
  by_operation : String → Nat

/-- `get_db_stats()`: `COUNT(*)`, `COUNT(DISTINCT operation || input)`
(SQL string concatenation of the two columns, with no separator),
`total - unique`, and the per-operation `COUNT(*)` of
`GROUP BY operation`. -/
def get_db_stats (db : List DbRecord) : DbStats :=
  { total_operations := db.length
  , unique_combinations := (db.map (fun r => r.operation ++ r.input)).toFinset.card
  , duplicates :=
      (db.length : Int) - ((db.map (fun r => r.operation ++ r.input)).toFinset.card : Int)
  , by_operation := fun op => (db.filter (fun r => r.operation == op)).length }

/-- The number of distinct `(operation name, serialized input)` fingerprints
among the rows — the quantity the unique count is specified to report. -/
def distinctFingerprints (db : List DbRecord) : Nat :=
  (db.map (fun r => (r.operation, r.input))).toFinset.card

/-- Two rows whose `(operation, input)` pairs differ but whose separator-less
concatenations `operation || input` coincide. -/
def collideDb : List DbRecord :=
  [{ operation := "ab", input := "c", result := "r1", timestamp := 0 },
   { operation := "a", input := "bc", result := "r2", timestamp := 1 }]

/-- A small log with a duplicated pow fingerprint and a fibonacci row,
used as a concrete statistics example. -/
def exampleStatsDb : List DbRecord :=
  [{ operation := "pow", input := "a", result := "r", timestamp := 0 },
   { operation := "fibonacci", input := "b", result := "s", timestamp := 1 },
   { operation := "pow", input := "a", result := "r", timestamp := 2 }]

/-- A pow log row; `tieRow2` duplicates it with the same timestamp, as the
`INSERT` of two identical requests in the same `utcnow()` microsecond (or
after a clock step back across a restart) produces. -/
def tieRow1 : DbRecord :=
  { operation := "pow", input := "\x7b\"x\": 2, \"y\": 3\x7d"
  , result := "\x7b\"result\": 8\x7d", timestamp := 7 }

/-- A second row with the same fingerprint, result and timestamp as
`tieRow1`. -/
def tieRow2 : DbRecord :=
  { operation := "pow", input := "\x7b\"x\": 2, \"y\": 3\x7d"
  , result := "\x7b\"result\": 8\x7d", timestamp := 7 }

/-- A log whose single fingerprint has two rows tied on the maximum
timestamp. -/
def tieDb : List DbRecord := [tieRow1, tieRow2]

/-- `operations/fibonacci.py`, the iteration `a, b = b, a + b` started from
`a, b = 0, 1`; `fibIter k` is the pair after `k` loop iterations. -/
def fibIter : Nat → Int × Int
  | 0 => (0, 1)
  | k + 1 => ((fibIter k).2, (fibIter k).1 + (fibIter k).2)

/-- `fibonacci(n)`: raises `ValueError` for `n < 0` (modelled as
`Except.error`), returns `n` for `n in (0, 1)`, and otherwise runs the
loop `for _ in range(n - 1)` and returns `b`. -/
def fibonacci (n : Int) : Except String Int :=
  if n < 0 then .error "Fibonacci not defined for negative numbers"
  else if n = 0 ∨ n = 1 then .ok n
  else .ok (fibIter (n - 1).toNat).2

/-- `FibonacciInput.n : int = Field(..., ge=0)` — the public input
validation applied before the handler body runs. -/
def fibInputValid (n : Int) : Bool := decide (0 ≤ n)

/-- `FibonacciInput(n=n).model_dump_json()`. -/
def fibInputJson (n : Int) : String :=
  "\x7b\"n\":" ++ toString n ++ "\x7d"

/-- `FibonacciResult(n=n, result=r).model_dump_json()` (fields in
declaration order: `operation`, `n`, `result`). -/
def fibResultJson (n r : Int) : String :=
  "\x7b\"operation\":\"fibonacci\",\"n\":" ++ toString n ++ ",\"result\":" ++ toString r ++ "\x7d"

/-- The mutable process state the coordinator touches: the cache, the
`operations` table, and the current `datetime.utcnow()` reading that
stamps appended rows. -/
structure AppState where
  cache : Cache
  db : List DbRecord
  now : Nat

/-- The shape shared by the three POST handlers of `api/main.py`: operation
name, pydantic input serialization (`model_dump_json`), the operation
function (a raised exception modelled as `Except.error`), and the result
model serialization. -/
structure Endpoint (α β : Type) where
  opName : String
  serializeInput : α → String
  compute : α → Except String β
  serializeResult : α → β → String

/-- Body of `calculate_pow` / `calculate_factorial` / `calculate_fibonacci`:
serialize the input, consult the cache with `if cached:` (Python
truthiness, so a present-but-empty cached string falls through to the miss
path); on a hit return the cached serialization with no state change; on a
miss run the operation, then store the serialized result in the cache,
append it to the log stamped with the current `utcnow()` reading
(`st.now`), and return it; an exception raised by the operation is caught
by the generic handler and surfaced as the HTTP 500 error.  The handler
itself does not advance the clock: time passing between observations is
the environment's doing (`tick` below), and `utcnow()` may well read the
same value at two successive writes. -/
def handleRequest (ep : Endpoint α β) (st : AppState) (a : α) : AppState × Except String String :=
  let input_json := ep.serializeInput a
  let miss : AppState × Except String String :=
    match ep.compute a with
    | .error _ => (st, .error "Eroare internă")
    | .ok v =>
      let result_json := ep.serializeResult a v
      ({ cache := set_in_cache ep.opName input_json result_json st.cache
        , db := save_operation ep.opName input_json result_json st.db st.now
        , now := st.now }, .ok result_json)
  match get_from_cache ep.opName input_json st.cache with
  | some cached => if cached == "" then miss else (st, .ok cached)
  | none => miss

/-- The `/api/fibonacci` endpoint instance. -/
def fibEndpoint : Endpoint Int Int :=
  { opName := "fibonacci"
  , serializeInput := fibInputJson
  , compute := fibonacci
  , serializeResult := fibResultJson }

/-- `calculate_fibonacci(data)` of `api/main.py`. -/
def calculate_fibonacci (st : AppState) (n : Int) : AppState × Except String String :=
  handleRequest fibEndpoint st n

/-- `POST /api/cache/clear` (`clear_cache_endpoint`). -/
def clearCacheEndpoint (st : AppState) : AppState :=
  { st with cache := clear_cache st.cache }

/-- The wall clock advancing by `d` between two observations of
`datetime.utcnow()`.  The source guarantees only that successive readings
are non-decreasing within one process, so `d = 0` — two writes stamped
with the same timestamp — is a legitimate execution. -/
def tick (st : AppState) (d : Nat) : AppState :=
  { st with now := st.now + d }

/-- Decidable equality of `Except` outcomes, needed to evaluate concrete
worker traces. -/
instance instDecEqExcept {ε α : Type} [DecidableEq ε] [DecidableEq α] :
    DecidableEq (Except ε α) := fun a b =>
  match a, b with
  | .ok x, .ok y => if h : x = y then .isTrue (by rw [h]) else .isFalse (by simp [h])
  | .error x, .error y => if h : x = y then .isTrue (by rw [h]) else .isFalse (by simp [h])
  | .ok _, .error _ => .isFalse (by simp)
  | .error _, .ok _ => .isFalse (by simp)

/-- A task dict submitted to the worker queue.  The outcome of
`func(**args)` is pre-modelled as an `Except` (an exception raised inside
the callable becomes `error`), and the task carries an identifier so that
callback invocations can be traced. -/
structure WTask where
  id : Nat
  comp : Except String Int
deriving DecidableEq

/-- `MathWorker.run`: take tasks from the queue until the `None` exit
sentinel; run each task's function; on success invoke its callback (traced
here as the pair `(id, result)`); an exception is caught by
`handle_generic_exception`, the callback is not invoked, and the loop
continues with the next task either way. -/
def workerRun : List (Option WTask) → List (Nat × Int)
  | [] => []
  | none :: _ => []
  | some t :: rest =>
    match t.comp with
    | .ok v => (t.id, v) :: workerRun rest
    | .error _ => workerRun rest

lemma lookupKey_setKey_self (c : Cache) (f : Fingerprint) (v : String) :
    lookupKey (setKey c f v) f = some v := by
  induction c with
  | nil => simp [setKey, lookupKey]
  | cons hd tl ih =>
    obtain ⟨k, w⟩ := hd
    by_cases h : k = f
    · simp [setKey, h, lookupKey]
    · simp [setKey, h, lookupKey, ih]

lemma lookupKey_setKey_other (c : Cache) (f g : Fingerprint) (v : String) (h : g ≠ f) :
    lookupKey (setKey c g v) f = lookupKey c f := by
  induction c with
  | nil => simp [setKey, lookupKey, h]
  | cons hd tl ih =>
    obtain ⟨k, w⟩ := hd
    by_cases hk : k = g
    · simp [setKey, hk, lookupKey, h]
    · simp only [setKey, if_neg hk, lookupKey]
      by_cases hf : k = f
      · simp [hf]
      · simp [hf, ih]

lemma lookupKey_applyCacheOps_frame (f : Fingerprint) (ops : List CacheOp) :
    ∀ c : Cache, (∀ o ∈ ops, opTouches f o = false) →
      lookupKey (applyCacheOps c ops) f = lookupKey c f := by
  induction ops with
  | nil => intro c _; rfl
  | cons o rest ih =>
    intro c hops
    have ho := hops o (List.mem_cons_self o rest)
    have hrest : ∀ o ∈ rest, opTouches f o = false :=
      fun o h => hops o (List.mem_cons_of_mem _ h)
    cases o with
    | store g v =>
      have hg : g ≠ f := by
        intro hgf
        simp [opTouches, hgf] at ho
      calc lookupKey (applyCacheOps (setKey c g v) rest) f
          = lookupKey (setKey c g v) f := ih (setKey c g v) hrest
        _ = lookupKey c f := lookupKey_setKey_other c f g v hg
    | clear => simp [opTouches] at ho

lemma lookupKey_none_frame (f : Fingerprint) (ops : List CacheOp) :
    ∀ c : Cache, (∀ o ∈ ops, storesKey f o = false) → lookupKey c f = none →
      lookupKey (applyCacheOps c ops) f = none := by
  induction ops with
  | nil => intro c _ hc; exact hc
  | cons o rest ih =>
    intro c hops hc
    have ho := hops o (List.mem_cons_self o rest)
    have hrest : ∀ o ∈ rest, storesKey f o = false :=
      fun o h => hops o (List.mem_cons_of_mem _ h)
    cases o with
    | store g v =>
      have hg : g ≠ f := by
        intro hgf
        simp [storesKey, hgf] at ho
      refine ih (setKey c g v) hrest ?_
      rw [lookupKey_setKey_other c f g v hg]
      exact hc
    | clear => exact ih [] hrest rfl

lemma iterate_clear_cache_nil (n : Nat) : clear_cache^[n] ([] : Cache) = [] := by
  induction n with
  | zero => rfl
  | succ k ih => rw [Function.iterate_succ_apply, clear_cache, ih]

/-- Claim C3: after `store(f, v)`, `lookup(f)` returns `v`; it keeps
returning `v` across any later cache activity that neither clears the
cache nor stores to `f`; and a second store to the same key overwrites:
after `store(f, v1); store(f, v2)`, `lookup(f)` returns `v2`. -/
theorem cache_store_lookup_spec :
    (∀ (c : Cache) (f : Fingerprint) (v : String), lookupKey (setKey c f v) f = some v) ∧
    (∀ (c : Cache) (f : Fingerprint) (v : String) (ops : List CacheOp),
      (∀ o ∈ ops, opTouches f o = false) →
      lookupKey (applyCacheOps (setKey c f v) ops) f = some v) ∧
    (∀ (c : Cache) (f : Fingerprint) (v1 v2 : String),
      lookupKey (setKey (setKey c f v1) f v2) f = some v2) := by
  refine ⟨lookupKey_setKey_self, ?_, ?_⟩
  · intro c f v ops hops
    rw [lookupKey_applyCacheOps_frame f ops (setKey c f v) hops]
    exact lookupKey_setKey_self c f v
  · intro c f v1 v2
    exact lookupKey_setKey_self (setKey c f v1) f v2

/-- Concrete instance of C3: a stored fibonacci entry survives an unrelated
pow store. -/
theorem cache_store_lookup_spec_witness :
    lookupKey
      (applyCacheOps (setKey [] ("fibonacci", "\x7b\"n\":5\x7d") "five")
        [CacheOp.store ("pow", "\x7b\"x\":2.0,\"y\":8.0\x7d") "eight"])
      ("fibonacci", "\x7b\"n\":5\x7d") = some "five" :=
  cache_store_lookup_spec.2.1 [] ("fibonacci", "\x7b\"n\":5\x7d") "five"
    [CacheOp.store ("pow", "\x7b\"x\":2.0,\"y\":8.0\x7d") "eight"] (by decide)

/-- Claim C4: after `clear()`, every fingerprint looks up to absent; it
stays absent across any later activity that does not store that
fingerprint (further clears included); and any positive number of
consecutive clears leaves the cache empty. -/
theorem cache_clear_spec :
    (∀ (c : Cache) (f : Fingerprint), lookupKey (clear_cache c) f = none) ∧
    (∀ (c : Cache) (f : Fingerprint) (ops : List CacheOp),
      (∀ o ∈ ops, storesKey f o = false) →
      lookupKey (applyCacheOps (clear_cache c) ops) f = none) ∧
    (∀ (c : Cache) (n : Nat), clear_cache^[n + 1] c = []) := by
  refine ⟨fun _ _ => rfl, ?_, ?_⟩
  · intro c f ops hops
    exact lookupKey_none_frame f ops (clear_cache c) hops rfl
  · intro c n
    rw [Function.iterate_succ_apply, clear_cache, iterate_clear_cache_nil]

/-- Concrete instance of C4: a cleared entry stays absent across another
clear and an unrelated store. -/
theorem cache_clear_spec_witness :
    lookupKey
      (applyCacheOps (clear_cache [(("fibonacci", "\x7b\"n\":5\x7d"), "five")])
        [CacheOp.clear, CacheOp.store ("pow", "\x7b\"x\":2.0,\"y\":8.0\x7d") "eight"])
      ("fibonacci", "\x7b\"n\":5\x7d") = none :=
  cache_clear_spec.2.1 [(("fibonacci", "\x7b\"n\":5\x7d"), "five")] ("fibonacci", "\x7b\"n\":5\x7d")
    [CacheOp.clear, CacheOp.store ("pow", "\x7b\"x\":2.0,\"y\":8.0\x7d") "eight"] (by decide)

lemma fibIter_eq (k : Nat) : fibIter k = ((Nat.fib k : Int), (Nat.fib (k + 1) : Int)) := by
  induction k with
  | zero => simp [fibIter]
  | succ k ih =>
    rw [fibIter, ih]
    refine Prod.ext rfl ?_
    show (Nat.fib k : Int) + (Nat.fib (k + 1) : Int) = (Nat.fib (k + 2) : Int)
    rw [Nat.fib_add_two]
    push_cast
    ring

lemma fibonacci_nat : ∀ m : Nat, fibonacci (m : Int) = .ok ((Nat.fib m : Int))
  | 0 => by simp [fibonacci]
  | 1 => by simp [fibonacci]
  | (k + 2) => by
    have h0 : ¬ (((k + 2 : Nat) : Int) < 0) := by push_cast; omega
    have h1 : ¬ (((k + 2 : Nat) : Int) = 0 ∨ ((k + 2 : Nat) : Int) = 1) := by push_cast; omega
    rw [fibonacci, if_neg h0, if_neg h1]
    have h2 : (((k + 2 : Nat) : Int) - 1).toNat = k + 1 := by push_cast; omega
    rw [h2, fibIter_eq]

/-- Claim C7: the fibonacci operation satisfies `fibonacci(0) = 0`,
`fibonacci(1) = 1`, and for every `n ≥ 2` it returns the sum of the values
returned for `n - 1` and `n - 2` (computed by the iterative
`a, b = b, a + b` recurrence). -/
theorem fibonacci_recurrence_spec :
    fibonacci 0 = .ok 0 ∧ fibonacci 1 = .ok 1 ∧
    ∀ n : Int, 2 ≤ n → ∃ a b : Int,
      fibonacci (n - 2) = .ok a ∧ fibonacci (n - 1) = .ok b ∧ fibonacci n = .ok (a + b) := by
  refine ⟨by simp [fibonacci], by simp [fibonacci], ?_⟩
  intro n hn
  obtain ⟨m, rfl⟩ : ∃ m : Nat, n = (m : Int) := ⟨n.toNat, (Int.toNat_of_nonneg (by omega)).symm⟩
  have hm : 2 ≤ m := by exact_mod_cast hn
  refine ⟨(Nat.fib (m - 2) : Int), (Nat.fib (m - 1) : Int), ?_, ?_, ?_⟩
  · have h : ((m : Int) - 2) = ((m - 2 : Nat) : Int) := by omega
    rw [h, fibonacci_nat]
  · have h : ((m : Int) - 1) = ((m - 1 : Nat) : Int) := by omega
    rw [h, fibonacci_nat]
  · rw [fibonacci_nat m]
    have h : Nat.fib m = Nat.fib (m - 2) + Nat.fib (m - 1) := by
      have h2 : m - 2 + 2 = m := by omega
      have h1 : m - 2 + 1 = m - 1 := by omega
      have hf := Nat.fib_add_two (n := m - 2)
      rw [h2, h1] at hf
      exact hf
    rw [h]
    push_cast
    ring_nf

/-- Concrete instance of C7: the recurrence at `n = 7`. -/
theorem fibonacci_recurrence_spec_witness :
    (2 : Int) ≤ 7 ∧ ∃ a b : Int,
      fibonacci (7 - 2) = .ok a ∧ fibonacci (7 - 1) = .ok b ∧ fibonacci 7 = .ok (a + b) :=
  ⟨by norm_num, fibonacci_recurrence_spec.2.2 7 (by norm_num)⟩

/-- Claim C10: inputs accepted by the public validation (`n ≥ 0` in
`FibonacciInput`) never reach the negative-argument branch: `fibonacci`
returns a value and never raises. -/
theorem fibonacci_validated_total (n : Int) (hval : fibInputValid n = true) :
    ∃ v : Int, fibonacci n = .ok v := by
  have h0 : 0 ≤ n := of_decide_eq_true hval
  obtain ⟨m, rfl⟩ : ∃ m : Nat, n = (m : Int) := ⟨n.toNat, (Int.toNat_of_nonneg h0).symm⟩
  exact ⟨(Nat.fib m : Int), fibonacci_nat m⟩

/-- Concrete instance of C10 at `n = 9`. -/
theorem fibonacci_validated_total_witness :
    fibInputValid 9 = true ∧ ∃ v : Int, fibonacci 9 = .ok v :=
  ⟨by decide, fibonacci_validated_total 9 (by decide)⟩

/-- Claim C8: a negative argument makes `fibonacci` raise the domain
error, and a request carrying it is answered with the generic error
response while the cache, the log and the clock are left untouched (the
operation is not retried). -/
theorem fibonacci_negative_rejected (n : Int) (st : AppState)
    (hneg : n < 0)
    (hmiss : get_from_cache "fibonacci" (fibInputJson n) st.cache = none) :
    fibonacci n = .error "Fibonacci not defined for negative numbers" ∧
    calculate_fibonacci st n = (st, .error "Eroare internă") := by
  have hfib : fibonacci n = .error "Fibonacci not defined for negative numbers" := by
    rw [fibonacci, if_pos hneg]
  refine ⟨hfib, ?_⟩
  simp only [calculate_fibonacci, handleRequest, fibEndpoint, hmiss, hfib]

/-- Concrete instance of C8 at `n = -1` from the empty state. -/
theorem fibonacci_negative_rejected_witness :
    (-1 : Int) < 0 ∧
    fibonacci (-1) = .error "Fibonacci not defined for negative numbers" ∧
    calculate_fibonacci ⟨[], [], 0⟩ (-1) = (⟨[], [], 0⟩, .error "Eroare internă") := by
  refine ⟨by norm_num, ?_, ?_⟩
  · exact (fibonacci_negative_rejected (-1) ⟨[], [], 0⟩ (by norm_num) rfl).1
  · exact (fibonacci_negative_rejected (-1) ⟨[], [], 0⟩ (by norm_num) rfl).2

lemma countFor_append (op inp : String) (a b : List DbRecord) :
    countFor op inp (a ++ b) = countFor op inp a + countFor op inp b := by
  simp [countFor, List.filter_append]

lemma beq_string_false_of_ne {s t : String} (h : s ≠ t) : (s == t) = false :=
  beq_eq_false_iff_ne.mpr h

/-- Claim C1: a repeated `(operation, input)` request with no intervening
cache clear writes exactly one log record for its fingerprint: the first
call computes, stores and appends; the second call is answered from the
cache with the same serialized result and changes neither the cache, nor
the log, nor the clock. -/
theorem coordinator_cache_dedup {α β : Type} (ep : Endpoint α β) (st : AppState) (a : α) (v : β)
    (hmiss : get_from_cache ep.opName (ep.serializeInput a) st.cache = none)
    (hfresh : countFor ep.opName (ep.serializeInput a) st.db = 0)
    (hok : ep.compute a = .ok v)
    (hne : ep.serializeResult a v ≠ "") :
    (handleRequest ep (handleRequest ep st a).1 a).1 = (handleRequest ep st a).1 ∧
    (handleRequest ep (handleRequest ep st a).1 a).2 = .ok (ep.serializeResult a v) ∧
    (handleRequest ep st a).2 = .ok (ep.serializeResult a v) ∧
    countFor ep.opName (ep.serializeInput a) (handleRequest ep st a).1.db = 1 := by
  have h1 : handleRequest ep st a =
      ({ cache := set_in_cache ep.opName (ep.serializeInput a) (ep.serializeResult a v) st.cache
        , db := save_operation ep.opName (ep.serializeInput a) (ep.serializeResult a v) st.db st.now
        , now := st.now }, .ok (ep.serializeResult a v)) := by
    simp only [handleRequest, hmiss, hok]
  have h2 : get_from_cache ep.opName (ep.serializeInput a)
      (set_in_cache ep.opName (ep.serializeInput a) (ep.serializeResult a v) st.cache)
      = some (ep.serializeResult a v) :=
    lookupKey_setKey_self st.cache (ep.opName, ep.serializeInput a) (ep.serializeResult a v)
  have h3 : handleRequest ep (handleRequest ep st a).1 a
      = ((handleRequest ep st a).1, .ok (ep.serializeResult a v)) := by
    rw [h1]
    simp only [handleRequest, h2, beq_string_false_of_ne hne, Bool.false_eq_true, if_false]
  refine ⟨by rw [h3], by rw [h3], by rw [h1], ?_⟩
  rw [h1]
  show countFor ep.opName (ep.serializeInput a)
    (save_operation ep.opName (ep.serializeInput a) (ep.serializeResult a v) st.db st.now) = 1
  rw [save_operation, countFor_append, hfresh]
  simp [countFor]

/-- Concrete instance of C1: `fibonacci(5)` issued twice from the empty
state yields one log row and a cache-served second response. -/
theorem coordinator_cache_dedup_witness :
    (handleRequest fibEndpoint (handleRequest fibEndpoint ⟨[], [], 0⟩ 5).1 5).1
      = (handleRequest fibEndpoint ⟨[], [], 0⟩ 5).1 ∧
    (handleRequest fibEndpoint (handleRequest fibEndpoint ⟨[], [], 0⟩ 5).1 5).2
      = .ok (fibEndpoint.serializeResult 5 5) ∧
    (handleRequest fibEndpoint ⟨[], [], 0⟩ 5).2 = .ok (fibEndpoint.serializeResult 5 5) ∧
    countFor fibEndpoint.opName (fibEndpoint.serializeInput 5)
      (handleRequest fibEndpoint ⟨[], [], 0⟩ 5).1.db = 1 :=
  coordinator_cache_dedup fibEndpoint ⟨[], [], 0⟩ 5 5 rfl rfl (by decide) (by decide)

lemma workerRun_mem_source :
    ∀ {q : List (Option WTask)} {i : Nat} {v : Int},
      (i, v) ∈ workerRun q → ∃ u : WTask, some u ∈ q ∧ u.id = i ∧ u.comp = .ok v := by
  intro q
  induction q with
  | nil => intro i v h; simp [workerRun] at h
  | cons x rest ih =>
    intro i v h
    cases x with
    | none => simp [workerRun] at h
    | some t =>
      cases hc : t.comp with
      | ok w =>
        simp only [workerRun, hc] at h
        rcases List.mem_cons.mp h with h | h
        · obtain ⟨hi, hv⟩ := Prod.mk.injEq .. ▸ h
          exact ⟨t, List.mem_cons_self _ _, by simp [hi.symm], by rw [hc, hv]⟩
        · obtain ⟨u, hu, hui, huc⟩ := ih h
          exact ⟨u, List.mem_cons_of_mem _ hu, hui, huc⟩
      | error e =>
        simp only [workerRun, hc] at h
        obtain ⟨u, hu, hui, huc⟩ := ih h
        exact ⟨u, List.mem_cons_of_mem _ hu, hui, huc⟩

lemma workerRun_mem_of_ok :
    ∀ {q : List (Option WTask)}, (∀ x ∈ q, x ≠ none) →
      ∀ {u : WTask} {v : Int}, some u ∈ q → u.comp = .ok v → (u.id, v) ∈ workerRun q := by
  intro q
  induction q with
  | nil => intro _ u v h; simp at h
  | cons x rest ih =>
    intro hall u v hu hok
    have hx : x ≠ none := hall x (List.mem_cons_self _ _)
    have hrest : ∀ y ∈ rest, y ≠ none := fun y h => hall y (List.mem_cons_of_mem _ h)
    obtain ⟨t, rfl⟩ := Option.ne_none_iff_exists'.mp hx
    rcases List.mem_cons.mp hu with h | h
    · obtain rfl := Option.some.inj h.symm
      simp only [workerRun, hok]
      exact List.mem_cons_self _ _
    · cases hc : t.comp with
      | ok w =>
        simp only [workerRun, hc]
        exact List.mem_cons_of_mem _ (ih hrest h hok)
      | error e =>
        simp only [workerRun, hc]
        exact ih hrest h hok

lemma workerRun_skip_failed :
    ∀ (pre : List (Option WTask)) (t : WTask) (post : List (Option WTask)) (e : String),
      (∀ x ∈ pre, x ≠ none) → t.comp = .error e →
      workerRun (pre ++ some t :: post) = workerRun (pre ++ post) := by
  intro pre
  induction pre with
  | nil =>
    intro t post e _ hfail
    simp only [List.nil_append, workerRun, hfail]
  | cons x rest ih =>
    intro t post e hall hfail
    have hx : x ≠ none := hall x (List.mem_cons_self _ _)
    have hrest : ∀ y ∈ rest, y ≠ none := fun y h => hall y (List.mem_cons_of_mem _ h)
    obtain ⟨u, rfl⟩ := Option.ne_none_iff_exists'.mp hx
    cases hc : u.comp with
    | ok w =>
      simp only [List.cons_append, workerRun, hc, List.append_eq]
      rw [ih t post e hrest hfail]
    | error f =>
      simp only [List.cons_append, workerRun, hc, List.append_eq]
      exact ih t post e hrest hfail

/-- Claim C9: if a task's operation raises, the worker catches the
exception and does not invoke that task's callback, and the rest of the
queue is processed exactly as if the failing task were absent; in
particular every later successfully-computing task still gets its callback
invoked. -/
theorem worker_fault_isolation (pre post : List (Option WTask)) (t : WTask) (msg : String)
    (hpre : ∀ x ∈ pre, x ≠ none)
    (hfail : t.comp = .error msg)
    (hid : ∀ u : WTask, some u ∈ pre ++ post → u.id ≠ t.id) :
    workerRun (pre ++ some t :: post) = workerRun (pre ++ post) ∧
    (∀ v : Int, (t.id, v) ∉ workerRun (pre ++ some t :: post)) ∧
    ((∀ x ∈ post, x ≠ none) → ∀ (u : WTask) (v : Int), some u ∈ post → u.comp = .ok v →
      (u.id, v) ∈ workerRun (pre ++ some t :: post)) := by
  have hskip := workerRun_skip_failed pre t post msg hpre hfail
  refine ⟨hskip, ?_, ?_⟩
  · intro v hmem
    rw [hskip] at hmem
    obtain ⟨u, hu, hui, _⟩ := workerRun_mem_source hmem
    exact hid u hu hui
  · intro hpost u v hu hok
    have hall : ∀ x ∈ pre ++ some t :: post, x ≠ none := by
      intro x hx
      rcases List.mem_append.mp hx with h | h
      · exact hpre x h
      · rcases List.mem_cons.mp h with h | h
        · rw [h]; exact Option.some_ne_none t
        · exact hpost x h
    exact workerRun_mem_of_ok hall
      (List.mem_append_right pre (List.mem_cons_of_mem _ hu)) hok

/-- Concrete instance of C9: task 1 raises, its callback never fires, and
the later task 2 still completes. -/
theorem worker_fault_isolation_witness :
    workerRun [some ⟨0, .ok 3⟩, some ⟨1, .error "boom"⟩, some ⟨2, .ok 7⟩]
      = workerRun [some ⟨0, .ok 3⟩, some ⟨2, .ok 7⟩] ∧
    (∀ v : Int, (1, v) ∉ workerRun [some ⟨0, .ok 3⟩, some ⟨1, .error "boom"⟩, some ⟨2, .ok 7⟩]) ∧
    (2, 7) ∈ workerRun [some ⟨0, .ok 3⟩, some ⟨1, .error "boom"⟩, some ⟨2, .ok 7⟩] := by
  have h := worker_fault_isolation [some ⟨0, .ok 3⟩] [some ⟨2, .ok 7⟩] ⟨1, .error "boom"⟩ "boom"
    (by decide) rfl
    (by
      intro u hu
      simp only [List.singleton_append, List.mem_cons, List.mem_singleton] at hu
      rcases hu with h | h | h
      · rw [Option.some.injEq] at h; subst h; decide
      · rw [Option.some.injEq] at h; subst h; decide
      · simp at h)
  exact ⟨h.1, h.2.1, h.2.2 (by decide) ⟨2, .ok 7⟩ 7 (by decide) rfl⟩

lemma map_toFinset_image {α β : Type} [DecidableEq α] [DecidableEq β] (l : List α) (f : α → β) :
    (l.map f).toFinset = l.toFinset.image f := by
  ext x
  simp


/-- Counterexample to C6 as stated: `COUNT(DISTINCT operation || input)`
concatenates the two columns with no separator, so on `collideDb` the
reported unique count is 1 while the number of distinct
`(operation, input)` fingerprints is 2. -/
theorem db_stats_unique_counterexample :
    (get_db_stats collideDb).unique_combinations = 1 ∧
    distinctFingerprints collideDb = 2 ∧
    (get_db_stats collideDb).unique_combinations ≠ distinctFingerprints collideDb := by
  refine ⟨by decide, by decide, by decide⟩

/-- Claim C6 (amended): unconditionally, the reported duplicate count
equals total minus unique, the unique count never exceeds the total,
duplicates are never negative, and the per-operation counts are the
per-operation row counts; and whenever no two rows collide under the
separator-less concatenation `operation || input` — in particular for the
service's fixed operation names `pow`, `factorial`, `fibonacci`, none a
beginning of another — the reported unique count moreover equals the
number of distinct `(operation name, serialized input)` fingerprints. -/
theorem db_stats_spec (db : List DbRecord) :
    ((∀ r1 ∈ db, ∀ r2 ∈ db,
        r1.operation ++ r1.input = r2.operation ++ r2.input →
        r1.operation = r2.operation ∧ r1.input = r2.input) →
      (get_db_stats db).unique_combinations = distinctFingerprints db) ∧
    (get_db_stats db).duplicates
      = ((get_db_stats db).total_operations : Int)
        - ((get_db_stats db).unique_combinations : Int) ∧
    (get_db_stats db).unique_combinations ≤ (get_db_stats db).total_operations ∧
    0 ≤ (get_db_stats db).duplicates ∧
    ∀ op : String, (get_db_stats db).by_operation op
      = (db.filter (fun r => r.operation == op)).length := by
  have hle : (get_db_stats db).unique_combinations ≤ (get_db_stats db).total_operations := by
    show (db.map (fun r => r.operation ++ r.input)).toFinset.card ≤ db.length
    calc (db.map (fun r => r.operation ++ r.input)).toFinset.card
        ≤ (db.map (fun r => r.operation ++ r.input)).length := List.toFinset_card_le _
      _ = db.length := List.length_map _ _
  refine ⟨?_, rfl, hle, ?_, fun op => rfl⟩
  · intro hinj
    show (db.map (fun r => r.operation ++ r.input)).toFinset.card
      = (db.map (fun r => (r.operation, r.input))).toFinset.card
    have hmm : db.map (fun r => r.operation ++ r.input)
        = (db.map (fun r => (r.operation, r.input))).map (fun q => q.1 ++ q.2) := by
      rw [List.map_map]
      rfl
    rw [hmm, map_toFinset_image]
    refine Finset.card_image_of_injOn ?_
    intro q1 hq1 q2 hq2 hcat
    rw [Finset.mem_coe, List.mem_toFinset, List.mem_map] at hq1 hq2
    obtain ⟨r1, hr1, rfl⟩ := hq1
    obtain ⟨r2, hr2, rfl⟩ := hq2
    obtain ⟨ho, hi⟩ := hinj r1 hr1 r2 hr2 hcat
    rw [Prod.mk.injEq]
    exact ⟨ho, hi⟩
  · show 0 ≤ (db.length : Int) - ((db.map (fun r => r.operation ++ r.input)).toFinset.card : Int)
    have h := hle
    simp only [get_db_stats] at h
    omega

/-- Concrete instance of C6 (amended) on a log with a duplicated pow row
and a fibonacci row, discharging the no-collision condition there. -/
theorem db_stats_spec_witness :
    (get_db_stats exampleStatsDb).unique_combinations = distinctFingerprints exampleStatsDb ∧
    (get_db_stats exampleStatsDb).duplicates
      = ((get_db_stats exampleStatsDb).total_operations : Int)
        - ((get_db_stats exampleStatsDb).unique_combinations : Int) ∧
    (get_db_stats exampleStatsDb).unique_combinations
      ≤ (get_db_stats exampleStatsDb).total_operations ∧
    0 ≤ (get_db_stats exampleStatsDb).duplicates ∧
    ∀ op : String, (get_db_stats exampleStatsDb).by_operation op
      = (exampleStatsDb.filter (fun r => r.operation == op)).length :=
  ⟨(db_stats_spec exampleStatsDb).1 (by decide),
   (db_stats_spec exampleStatsDb).2.1,
   (db_stats_spec exampleStatsDb).2.2.1,
   (db_stats_spec exampleStatsDb).2.2.2.1,
   (db_stats_spec exampleStatsDb).2.2.2.2⟩

/-- Claim C5's failing input evaluated on the code: the two rows of
`tieDb` share one fingerprint and tie on its maximum timestamp, and
`get_unique_operations` returns both of them — two rows for one
fingerprint instead of a single deterministically selected one. -/
theorem getUnique_tie_returns_both :
    sameKey tieRow1 tieRow2 = true ∧ tieRow1.timestamp = tieRow2.timestamp ∧
    get_unique_operations none none tieDb = [tieRow1, tieRow2] ∧
    (get_unique_operations none none tieDb).length = 2 := by
  refine ⟨by decide, by decide, by decide, by decide⟩

lemma matchesFilters_none_none (r : DbRecord) : matchesFilters none none r = true := by
  simp [matchesFilters, truthy]

lemma filter_matchesFilters_none (db : List DbRecord) :
    db.filter (matchesFilters none none) = db :=
  List.filter_eq_self.mpr (fun r _ => matchesFilters_none_none r)

lemma insertByTsDesc_perm (r : DbRecord) (l : List DbRecord) :
    (insertByTsDesc r l).Perm (r :: l) := by
  induction l with
  | nil => exact List.Perm.refl _
  | cons s rest ih =>
    rw [insertByTsDesc]
    by_cases h : s.timestamp ≤ r.timestamp
    · rw [if_pos h]
    · rw [if_neg h]
      exact List.Perm.trans (ih.cons s) (List.Perm.swap r s rest)

lemma sortByTsDesc_perm (l : List DbRecord) : (sortByTsDesc l).Perm l := by
  induction l with
  | nil => exact List.Perm.refl _
  | cons r rest ih =>
    exact List.Perm.trans (insertByTsDesc_perm r (sortByTsDesc rest)) (ih.cons r)

lemma getUnique_filter_two (base : List DbRecord) (r1 r2 : DbRecord)
    (hop : r1.operation = r2.operation) (hin : r1.input = r2.input)
    (hbase : ∀ s ∈ base, ¬ (s.operation = r2.operation ∧ s.input = r2.input))
    (hts : r1.timestamp < r2.timestamp) :
    (get_unique_operations none none (base ++ [r1, r2])).filter
      (fun r => r.operation == r2.operation && r.input == r2.input) = [r2] := by
  have hkeep1 : (base ++ [r1, r2]).all
      (fun s => !sameKey r1 s || decide (s.timestamp ≤ r1.timestamp)) = false := by
    rw [List.all_eq_false]
    refine ⟨r2, by simp, ?_⟩
    simp only [sameKey, hop, hin, beq_self_eq_true, Bool.and_self, Bool.not_true,
      Bool.false_or, decide_eq_true_eq]
    omega
  have hkeep2 : (base ++ [r1, r2]).all
      (fun s => !sameKey r2 s || decide (s.timestamp ≤ r2.timestamp)) = true := by
    rw [List.all_eq_true]
    intro s hs
    rcases List.mem_append.mp hs with h | h
    · have hb := hbase s h
      have hsk : sameKey r2 s = false := by
        by_cases h1 : s.operation = r2.operation
        · have h2 : s.input ≠ r2.input := fun h2 => hb ⟨h1, h2⟩
          simp [sameKey, beq_string_false_of_ne (Ne.symm h2)]
        · simp [sameKey, beq_string_false_of_ne (fun h => h1 h.symm)]
      simp [hsk]
    · rcases List.mem_cons.mp h with h | h
      · subst h
        simp [hts.le]
      · rw [List.mem_singleton.mp h]
        simp
  have hp1 : (r1.operation == r2.operation && r1.input == r2.input) = true := by
    simp [hop, hin]
  have hp2 : (r2.operation == r2.operation && r2.input == r2.input) = true := by
    simp
  have hbp : ∀ s ∈ base, (s.operation == r2.operation && s.input == r2.input) = false := by
    intro s hs
    have hb := hbase s hs
    by_cases h1 : s.operation = r2.operation
    · have h2 : s.input ≠ r2.input := fun h2 => hb ⟨h1, h2⟩
      simp [beq_string_false_of_ne h2]
    · simp [beq_string_false_of_ne h1]
  simp only [get_unique_operations, filter_matchesFilters_none]
  have hperm := List.Perm.filter
    (fun r => r.operation == r2.operation && r.input == r2.input)
    (sortByTsDesc_perm ((base ++ [r1, r2]).filter
      (fun r => (base ++ [r1, r2]).all
        (fun s => !sameKey r s || decide (s.timestamp ≤ r.timestamp)))))
  refine List.perm_singleton.mp (List.Perm.trans hperm ?_)
  rw [List.filter_filter, List.filter_append]
  have hb0 : base.filter (fun a => (a.operation == r2.operation && a.input == r2.input) &&
      (base ++ [r1, r2]).all (fun s => !sameKey a s || decide (s.timestamp ≤ a.timestamp)))
      = [] := by
    refine List.filter_eq_nil_iff.mpr ?_
    intro s hs
    simp [hbp s hs]
  rw [hb0]
  simp only [List.filter_cons, hkeep1, hkeep2, hp1, hp2, Bool.and_false, Bool.and_true,
    Bool.true_and, Bool.false_and, List.filter_nil, List.nil_append, if_false, if_true]
  exact List.Perm.refl _

lemma handleRequest_miss_eq {α β : Type} (ep : Endpoint α β) (st : AppState) (a : α) (v : β)
    (hmiss : get_from_cache ep.opName (ep.serializeInput a) st.cache = none)
    (hok : ep.compute a = .ok v) :
    handleRequest ep st a =
      ({ cache := set_in_cache ep.opName (ep.serializeInput a) (ep.serializeResult a v) st.cache
        , db := save_operation ep.opName (ep.serializeInput a) (ep.serializeResult a v) st.db st.now
        , now := st.now }, .ok (ep.serializeResult a v)) := by
  simp only [handleRequest, hmiss, hok]

/-- Counterexample to C2 as stated: when no wall-clock time passes between
the two requests (`tick` by 0, i.e. the two `utcnow()` readings coincide —
permitted, since the source guarantees only non-decreasing timestamps),
the two log rows of the fingerprint tie on the maximum timestamp and the
unique view returns both of them, not exactly one. -/
theorem coordinator_clear_duplicates_counterexample :
    countFor fibEndpoint.opName (fibEndpoint.serializeInput 5)
      (handleRequest fibEndpoint
        (tick (clearCacheEndpoint (handleRequest fibEndpoint ⟨[], [], 0⟩ 5).1) 0) 5).1.db = 2 ∧
    ((get_unique_operations none none
        (handleRequest fibEndpoint
          (tick (clearCacheEndpoint (handleRequest fibEndpoint ⟨[], [], 0⟩ 5).1) 0) 5).1.db).filter
      (fun r => r.operation == fibEndpoint.opName &&
        r.input == fibEndpoint.serializeInput 5)).length = 2 := by
  refine ⟨by decide, by decide⟩

/-- Claim C2 (amended): a repeated `(operation, input)` request with a
cache clear between the two calls always appends exactly two log records
for its fingerprint; whenever any wall-clock time elapsed between the two
writes (`0 < d`, so the second `utcnow()` reading is strictly later) the
unique view contains exactly one row for that fingerprint — the second,
most recent, record.  When the two timestamps tie (`d = 0`) the unique
view returns both rows, so the unique-view part cannot be unconditional. -/
theorem coordinator_clear_enables_duplicates {α β : Type}
    (ep : Endpoint α β) (st : AppState) (a : α) (v : β) (d : Nat)
    (hmiss : get_from_cache ep.opName (ep.serializeInput a) st.cache = none)
    (hfresh : countFor ep.opName (ep.serializeInput a) st.db = 0)
    (hok : ep.compute a = .ok v) :
    countFor ep.opName (ep.serializeInput a)
      (handleRequest ep (tick (clearCacheEndpoint (handleRequest ep st a).1) d) a).1.db = 2 ∧
    (0 < d →
      (get_unique_operations none none
          (handleRequest ep (tick (clearCacheEndpoint (handleRequest ep st a).1) d) a).1.db).filter
        (fun r => r.operation == ep.opName && r.input == ep.serializeInput a)
        = [{ operation := ep.opName, input := ep.serializeInput a
           , result := ep.serializeResult a v, timestamp := st.now + d }]) := by
  have h1 := handleRequest_miss_eq ep st a v hmiss hok
  have h2 : tick (clearCacheEndpoint (handleRequest ep st a).1) d
      = { cache := []
        , db := save_operation ep.opName (ep.serializeInput a) (ep.serializeResult a v) st.db st.now
        , now := st.now + d } := by
    rw [h1]
    rfl
  rw [h2]
  have h3 := handleRequest_miss_eq ep
    { cache := []
    , db := save_operation ep.opName (ep.serializeInput a) (ep.serializeResult a v) st.db st.now
    , now := st.now + d } a v rfl hok
  rw [h3]
  have hshape : save_operation ep.opName (ep.serializeInput a) (ep.serializeResult a v)
      (save_operation ep.opName (ep.serializeInput a) (ep.serializeResult a v) st.db st.now)
      (st.now + d)
      = st.db ++
        [{ operation := ep.opName, input := ep.serializeInput a
         , result := ep.serializeResult a v, timestamp := st.now },
         { operation := ep.opName, input := ep.serializeInput a
         , result := ep.serializeResult a v, timestamp := st.now + d }] := by
    simp [save_operation]
  constructor
  · show countFor ep.opName (ep.serializeInput a)
      (save_operation ep.opName (ep.serializeInput a) (ep.serializeResult a v)
        (save_operation ep.opName (ep.serializeInput a) (ep.serializeResult a v) st.db st.now)
        (st.now + d)) = 2
    rw [hshape, countFor_append, hfresh]
    simp [countFor]
  · intro hd
    show (get_unique_operations none none
        (save_operation ep.opName (ep.serializeInput a) (ep.serializeResult a v)
          (save_operation ep.opName (ep.serializeInput a) (ep.serializeResult a v) st.db st.now)
          (st.now + d))).filter
      (fun r => r.operation == ep.opName && r.input == ep.serializeInput a)
      = [{ operation := ep.opName, input := ep.serializeInput a
         , result := ep.serializeResult a v, timestamp := st.now + d }]
    rw [hshape]
    have hnil : st.db.filter
        (fun r => r.operation == ep.opName && r.input == ep.serializeInput a) = [] :=
      List.length_eq_zero.mp hfresh
    refine getUnique_filter_two st.db
      { operation := ep.opName, input := ep.serializeInput a
      , result := ep.serializeResult a v, timestamp := st.now }
      { operation := ep.opName, input := ep.serializeInput a
      , result := ep.serializeResult a v, timestamp := st.now + d }
      rfl rfl ?_ (by show st.now < st.now + d; omega)
    intro s hs hcontra
    have hmem : s ∈ st.db.filter
        (fun r => r.operation == ep.opName && r.input == ep.serializeInput a) :=
      List.mem_filter.mpr ⟨hs, by simp [hcontra.1, hcontra.2]⟩
    rw [hnil] at hmem
    simp at hmem

/-- Concrete instance of C2 (amended): `fibonacci(5)`, clear, one clock
step, `fibonacci(5)` from the empty state gives two log rows and a single
unique-view row for the fingerprint. -/
theorem coordinator_clear_enables_duplicates_witness :
    countFor fibEndpoint.opName (fibEndpoint.serializeInput 5)
      (handleRequest fibEndpoint
        (tick (clearCacheEndpoint (handleRequest fibEndpoint ⟨[], [], 0⟩ 5).1) 1) 5).1.db = 2 ∧
    (get_unique_operations none none
        (handleRequest fibEndpoint
          (tick (clearCacheEndpoint (handleRequest fibEndpoint ⟨[], [], 0⟩ 5).1) 1) 5).1.db).filter
      (fun r => r.operation == fibEndpoint.opName && r.input == fibEndpoint.serializeInput 5)
      = [{ operation := fibEndpoint.opName, input := fibEndpoint.serializeInput 5
         , result := fibEndpoint.serializeResult 5 5, timestamp := 0 + 1 }] := by
  have h := coordinator_clear_enables_duplicates fibEndpoint ⟨[], [], 0⟩ 5 5 1 rfl rfl (by decide)
  exact ⟨h.1, h.2 (by decide)⟩
